import Mathlib

/-!
Shallow embedding of the client-side streaming engine of
`src/app/static/JS/script.js` (AI-Voice-Agent): the Murf TTS fragment
assembler, RIFF header repair, transcript normalization and the
partial/turn-end reconciler, the PCM 16-bit framer, the autoplay unlock
gate, the playback retry supervisor, and the `toggleMic` start path.

Byte buffers are modelled as `List Nat` (each entry one byte value),
strings as `List Char`, and JS numbers for sample data as `ℚ`.
-/

namespace VoiceAgent

/-! ### Murf streaming assembler (script.js lines 48-131) -/

/-- State of the Murf streaming playback assembler: the module-level
variables `murfAudioCtx` (modelled as presence flag), `murfAudioChunks`,
`murfPlaying` and `murfFirstChunk`. -/
structure MurfState where
  hasCtx : Bool
  chunks : List (List Nat)
  playing : Bool
  firstChunk : Bool
  deriving Repr, DecidableEq

/-- The initial module state: no context, no chunks, not playing. -/
def murfInit : MurfState := ⟨false, [], false, true⟩

/-- `initMurfStreamPlayback()`: ensure an AudioContext, clear the chunk
list, set `murfPlaying`, set `murfFirstChunk`. -/
def initMurfStreamPlayback (_s : MurfState) : MurfState :=
  { hasCtx := true, chunks := [], playing := true, firstChunk := true }

/-- Does the buffer begin with the RIFF signature bytes
`0x52 0x49 0x46 0x46`, as tested by `bytes[0] === 0x52 && ...`? -/
def startsRIFF (b : List Nat) : Bool :=
  b.getD 0 0 == 0x52 && b.getD 1 0 == 0x49 && b.getD 2 0 == 0x46 && b.getD 3 0 == 0x46

/-- `pushMurfAudioChunk(b64)` after base64 decoding: if this is not the
first chunk, the chunk is at least 44 bytes and begins with `RIFF`,
append `bytes.subarray(44)`; otherwise append the bytes unchanged.
Then clear `murfFirstChunk`. -/
def pushMurfAudioChunk (s : MurfState) (bytes : List Nat) : MurfState :=
  let processed :=
    if !s.firstChunk && decide (bytes.length ≥ 44) && startsRIFF bytes then
      bytes.drop 44
    else
      bytes
  { s with chunks := s.chunks ++ [processed], firstChunk := false }

/-- Write the 4-byte little-endian encoding of `v` (mod 2^32) at byte
offset `off`, as `DataView.setUint32(off, v, true)` does. -/
def setUint32LE (buf : List Nat) (off v : Nat) : List Nat :=
  let w := v % 2 ^ 32
  ((((buf.set off (w % 2 ^ 8)).set (off + 1) (w / 2 ^ 8 % 2 ^ 8)).set
      (off + 2) (w / 2 ^ 16 % 2 ^ 8)).set (off + 3) (w / 2 ^ 24 % 2 ^ 8))

/-- Read the 4-byte little-endian unsigned value at byte offset `off`. -/
def readLE32 (buf : List Nat) (off : Nat) : Nat :=
  buf.getD off 0 + 2 ^ 8 * buf.getD (off + 1) 0 +
    2 ^ 16 * buf.getD (off + 2) 0 + 2 ^ 24 * buf.getD (off + 3) 0

/-- `finalizeMurfStream()`: clear `murfPlaying`; if there is no context or
no chunks, return without a buffer.  Otherwise concatenate all chunks; if
the first chunk is at least 44 bytes and begins with `RIFF`, patch the
ChunkSize field (offset 4) to `36 + dataSize` and the Subchunk2Size field
(offset 40) to `dataSize` where `dataSize = totalLength - 44`.  The second
component is the buffer handed to `decodeAudioData`. -/
def finalizeMurfStream (s : MurfState) : MurfState × Option (List Nat) :=
  let s' := { s with playing := false }
  if !s.hasCtx || s.chunks.isEmpty then
    (s', none)
  else
    let fullAudio := s.chunks.flatten
    let patched :=
      match s.chunks with
      | first :: _ =>
          if decide (first.length ≥ 44) && startsRIFF first then
            let dataSize := fullAudio.length - 44
            setUint32LE (setUint32LE fullAudio 4 (36 + dataSize)) 40 dataSize
          else
            fullAudio
      | [] => fullAudio
    (s', some patched)

/-- The `tts_chunk` branch of `streamWS.onmessage`: start a new
accumulation only when `murfPlaying` is not set, then push the decoded
chunk.  The Boolean records whether `initMurfStreamPlayback` ran. -/
def handleTtsChunk (s : MurfState) (bytes : List Nat) : MurfState × Bool :=
  if s.playing then
    (pushMurfAudioChunk s bytes, false)
  else
    (pushMurfAudioChunk (initMurfStreamPlayback s) bytes, true)

/-- Header stripping applied to one fragment that is not the first of its
session: drop the 44 header bytes when it begins with `RIFF` and is at
least 44 bytes long, keep it unchanged otherwise. -/
def stripDupHeader (f : List Nat) : List Nat :=
  if decide (f.length ≥ 44) && startsRIFF f then f.drop 44 else f

/-- Push a whole list of decoded fragments in arrival order. -/
def pushAll (s : MurfState) (frags : List (List Nat)) : MurfState :=
  frags.foldl pushMurfAudioChunk s

theorem pushAll_chunks_of_not_first (fs : List (List Nat)) :
    ∀ s : MurfState, s.firstChunk = false →
      (pushAll s fs).chunks = s.chunks ++ fs.map stripDupHeader ∧
      (pushAll s fs).firstChunk = false := by
  induction fs with
  | nil => intro s h; simp [pushAll, h]
  | cons f rest ih =>
      intro s h
      have hstep : pushAll s (f :: rest) = pushAll (pushMurfAudioChunk s f) rest := rfl
      have hfc : (pushMurfAudioChunk s f).firstChunk = false := rfl
      obtain ⟨h1, h2⟩ := ih (pushMurfAudioChunk s f) hfc
      refine ⟨?_, by rw [hstep]; exact h2⟩
      rw [hstep, h1]
      simp [pushMurfAudioChunk, h, stripDupHeader]

/-! ### Transcript normalization (script.js lines 575-577)

`normalizeTranscript(t)` is
`t.replace(/\s+/g,' ')` then a replace removing U+200B..U+200D and U+FEFF, then `.trim()`.
Strings are modelled as `List Char`. -/

/-- The character class of the JavaScript regex `\s` (and of
`String.prototype.trim`): tab, line feed, vertical tab, form feed,
carriage return, space, NBSP, Ogham space mark, U+2000-U+200A, line and
paragraph separators, narrow no-break space, medium mathematical space,
ideographic space, and the BOM U+FEFF. -/
def jsWhitespace (c : Char) : Bool :=
  let n := c.toNat
  n == 9 || n == 10 || n == 11 || n == 12 || n == 13 || n == 32 ||
    n == 0xA0 || n == 0x1680 || (0x2000 ≤ n && n ≤ 0x200A) ||
    n == 0x2028 || n == 0x2029 || n == 0x202F || n == 0x205F ||
    n == 0x3000 || n == 0xFEFF

/-- The character class removed by the second `replace`:
U+200B..U+200D and U+FEFF. -/
def zeroWidth (c : Char) : Bool :=
  let n := c.toNat
  (0x200B ≤ n && n ≤ 0x200D) || n == 0xFEFF

/-- `replace(/\s+/g, ' ')`: each maximal run of `\s` characters becomes a
single space.  The flag records whether the previous character belonged to
a run that has already emitted its space. -/
def collapseAux : Bool → List Char → List Char
  | _, [] => []
  | inRun, c :: rest =>
    if jsWhitespace c then
      if inRun then collapseAux true rest else ' ' :: collapseAux true rest
    else c :: collapseAux false rest

def collapseWs (l : List Char) : List Char := collapseAux false l

/-- The second `replace`: delete every zero-width character. -/
def stripZeroWidth (l : List Char) : List Char := l.filter (fun c => !zeroWidth c)

/-- Remove trailing `\s` characters (the right half of `trim()`). -/
def dropTrailingWs : List Char → List Char
  | [] => []
  | c :: rest =>
    let r := dropTrailingWs rest
    if r.isEmpty && jsWhitespace c then [] else c :: r

/-- `String.prototype.trim()`: remove leading and trailing `\s`. -/
def trimWs (l : List Char) : List Char := dropTrailingWs (l.dropWhile jsWhitespace)

/-- `normalizeTranscript(t)` from the `streamWS.onmessage` closure. -/
def normalizeTranscript (l : List Char) : List Char :=
  trimWs (stripZeroWidth (collapseWs l))

end VoiceAgent

namespace VoiceAgent

/-- C3: starting from a fresh accumulation session, the first fragment is
appended unchanged (even when it carries a `RIFF` header), and every
subsequent fragment has exactly its first 44 bytes dropped when it begins
with `RIFF` and is at least 44 bytes long and is appended unchanged
otherwise; hence the assembled buffer is the first fragment (header
included, once) followed by the stripped payloads in arrival order. -/
theorem murf_reassembly_strips_dup_headers (s0 : MurfState)
    (f1 : List Nat) (fs : List (List Nat)) :
    (pushAll (initMurfStreamPlayback s0) (f1 :: fs)).chunks =
        f1 :: fs.map stripDupHeader ∧
    (pushAll (initMurfStreamPlayback s0) (f1 :: fs)).chunks.flatten =
        f1 ++ (fs.map stripDupHeader).flatten ∧
    (∀ f : List Nat, (44 ≤ f.length ∧ startsRIFF f = true) →
        stripDupHeader f = f.drop 44) ∧
    (∀ f : List Nat, ¬ (44 ≤ f.length ∧ startsRIFF f = true) →
        stripDupHeader f = f) := by
  have hstep : pushAll (initMurfStreamPlayback s0) (f1 :: fs) =
      pushAll (pushMurfAudioChunk (initMurfStreamPlayback s0) f1) fs := rfl
  have hfirst : pushMurfAudioChunk (initMurfStreamPlayback s0) f1 =
      { hasCtx := true, chunks := [f1], playing := true, firstChunk := false } := by
    simp [pushMurfAudioChunk, initMurfStreamPlayback]
  obtain ⟨h1, _⟩ := pushAll_chunks_of_not_first fs
    { hasCtx := true, chunks := [f1], playing := true, firstChunk := false } rfl
  have hchunks : (pushAll (initMurfStreamPlayback s0) (f1 :: fs)).chunks =
      f1 :: fs.map stripDupHeader := by
    rw [hstep, hfirst, h1]; simp
  refine ⟨hchunks, by rw [hchunks]; simp, ?_, ?_⟩
  · intro f hf
    simp [stripDupHeader, hf.1, hf.2]
  · intro f hf
    rcases Decidable.not_and_iff_or_not.mp hf with h | h
    · simp [stripDupHeader, h]
    · simp only [Bool.not_eq_true] at h
      simp [stripDupHeader, h]

/-- C6: a `tts_chunk` arriving while `murfPlaying` is set does not begin a
new accumulation session: `initMurfStreamPlayback` is not invoked, the
buffered fragment list is extended (never cleared), and a new session
begins exactly when the assembler is not accumulating. -/
theorem tts_chunk_preserves_active_session (s : MurfState) (b : List Nat)
    (h : s.playing = true) :
    (handleTtsChunk s b).2 = false ∧
    (handleTtsChunk s b).1 = pushMurfAudioChunk s b ∧
    (∃ c, (handleTtsChunk s b).1.chunks = s.chunks ++ [c]) ∧
    (∀ (s' : MurfState) (b' : List Nat),
        (handleTtsChunk s' b').2 = true ↔ s'.playing = false) := by
  refine ⟨by simp [handleTtsChunk, h], by simp [handleTtsChunk, h], ?_, ?_⟩
  · refine ⟨if !s.firstChunk && decide (b.length ≥ 44) && startsRIFF b then
        b.drop 44 else b, ?_⟩
    have h2 : (handleTtsChunk s b).1 = pushMurfAudioChunk s b := by
      simp [handleTtsChunk, h]
    rw [h2]
    rfl
  · intro s' b'
    rcases hp : s'.playing <;> simp [handleTtsChunk, hp]

theorem getD_set_self (l : List Nat) (i a : Nat) (h : i < l.length) :
    (l.set i a).getD i 0 = a := by
  simp [List.getD_eq_getElem?_getD, List.getElem?_set_self', List.getElem?_eq_getElem h]

theorem getD_set_ne (l : List Nat) (i j a : Nat) (h : i ≠ j) :
    (l.set i a).getD j 0 = l.getD j 0 := by
  simp [List.getD_eq_getElem?_getD, List.getElem?_set_ne h]

theorem length_setUint32LE (buf : List Nat) (off v : Nat) :
    (setUint32LE buf off v).length = buf.length := by
  simp [setUint32LE]

theorem readLE32_setUint32LE_self (buf : List Nat) (off v : Nat)
    (h : off + 3 < buf.length) :
    readLE32 (setUint32LE buf off v) off = v % 2 ^ 32 := by
  have hw : v % 2 ^ 32 < 2 ^ 32 := Nat.mod_lt _ (by norm_num)
  have e0 : (setUint32LE buf off v).getD off 0 = v % 2 ^ 32 % 2 ^ 8 := by
    show ((((buf.set off (v % 2 ^ 32 % 2 ^ 8)).set (off + 1) (v % 2 ^ 32 / 2 ^ 8 % 2 ^ 8)).set
        (off + 2) (v % 2 ^ 32 / 2 ^ 16 % 2 ^ 8)).set (off + 3)
        (v % 2 ^ 32 / 2 ^ 24 % 2 ^ 8)).getD off 0 = v % 2 ^ 32 % 2 ^ 8
    rw [getD_set_ne _ _ _ _ (show off + 3 ≠ off by omega),
        getD_set_ne _ _ _ _ (show off + 2 ≠ off by omega),
        getD_set_ne _ _ _ _ (show off + 1 ≠ off by omega),
        getD_set_self _ _ _ (show off < buf.length by omega)]
  have e1 : (setUint32LE buf off v).getD (off + 1) 0 = v % 2 ^ 32 / 2 ^ 8 % 2 ^ 8 := by
    show ((((buf.set off (v % 2 ^ 32 % 2 ^ 8)).set (off + 1) (v % 2 ^ 32 / 2 ^ 8 % 2 ^ 8)).set
        (off + 2) (v % 2 ^ 32 / 2 ^ 16 % 2 ^ 8)).set (off + 3)
        (v % 2 ^ 32 / 2 ^ 24 % 2 ^ 8)).getD (off + 1) 0 = v % 2 ^ 32 / 2 ^ 8 % 2 ^ 8
    rw [getD_set_ne _ _ _ _ (show off + 3 ≠ off + 1 by omega),
        getD_set_ne _ _ _ _ (show off + 2 ≠ off + 1 by omega),
        getD_set_self _ _ _
          (show off + 1 < (buf.set off (v % 2 ^ 32 % 2 ^ 8)).length by simp; omega)]
  have e2 : (setUint32LE buf off v).getD (off + 2) 0 = v % 2 ^ 32 / 2 ^ 16 % 2 ^ 8 := by
    show ((((buf.set off (v % 2 ^ 32 % 2 ^ 8)).set (off + 1) (v % 2 ^ 32 / 2 ^ 8 % 2 ^ 8)).set
        (off + 2) (v % 2 ^ 32 / 2 ^ 16 % 2 ^ 8)).set (off + 3)
        (v % 2 ^ 32 / 2 ^ 24 % 2 ^ 8)).getD (off + 2) 0 = v % 2 ^ 32 / 2 ^ 16 % 2 ^ 8
    rw [getD_set_ne _ _ _ _ (show off + 3 ≠ off + 2 by omega),
        getD_set_self _ _ _
          (show off + 2 <
            ((buf.set off (v % 2 ^ 32 % 2 ^ 8)).set (off + 1)
              (v % 2 ^ 32 / 2 ^ 8 % 2 ^ 8)).length by simp; omega)]
  have e3 : (setUint32LE buf off v).getD (off + 3) 0 = v % 2 ^ 32 / 2 ^ 24 % 2 ^ 8 := by
    show ((((buf.set off (v % 2 ^ 32 % 2 ^ 8)).set (off + 1) (v % 2 ^ 32 / 2 ^ 8 % 2 ^ 8)).set
        (off + 2) (v % 2 ^ 32 / 2 ^ 16 % 2 ^ 8)).set (off + 3)
        (v % 2 ^ 32 / 2 ^ 24 % 2 ^ 8)).getD (off + 3) 0 = v % 2 ^ 32 / 2 ^ 24 % 2 ^ 8
    rw [getD_set_self _ _ _
          (show off + 3 <
            (((buf.set off (v % 2 ^ 32 % 2 ^ 8)).set (off + 1)
              (v % 2 ^ 32 / 2 ^ 8 % 2 ^ 8)).set (off + 2)
              (v % 2 ^ 32 / 2 ^ 16 % 2 ^ 8)).length by simp; omega)]
  unfold readLE32
  rw [e0, e1, e2, e3]
  omega

theorem getD_setUint32LE_outside (buf : List Nat) (off v j : Nat)
    (h : j < off ∨ off + 3 < j) :
    (setUint32LE buf off v).getD j 0 = buf.getD j 0 := by
  simp only [setUint32LE, List.getD_eq_getElem?_getD]
  rw [List.getElem?_set_ne (show off + 3 ≠ j by omega),
      List.getElem?_set_ne (show off + 2 ≠ j by omega),
      List.getElem?_set_ne (show off + 1 ≠ j by omega),
      List.getElem?_set_ne (show off ≠ j by omega)]

theorem readLE32_setUint32LE_disjoint (buf : List Nat) (off v j : Nat)
    (h : j + 3 < off ∨ off + 3 < j) :
    readLE32 (setUint32LE buf off v) j = readLE32 buf j := by
  unfold readLE32
  rw [getD_setUint32LE_outside _ _ _ _ (by omega),
      getD_setUint32LE_outside _ _ _ _ (by omega),
      getD_setUint32LE_outside _ _ _ _ (by omega),
      getD_setUint32LE_outside _ _ _ _ (by omega)]

/-- C2: when the first buffered fragment is at least 44 bytes and begins
with `RIFF`, `finalizeMurfStream` hands `decodeAudioData` the concatenated
buffer of total length `L` with the little-endian ChunkSize field at
offset 4 equal to `36 + (L - 44)` and the little-endian Subchunk2Size
field at offset 40 equal to `L - 44`. -/
theorem finalize_patches_riff_sizes (s : MurfState) (first : List Nat)
    (rest : List (List Nat)) (hc : s.chunks = first :: rest)
    (hctx : s.hasCtx = true) (hlen : 44 ≤ first.length)
    (hriff : startsRIFF first = true)
    (hbound : 36 + (s.chunks.flatten.length - 44) < 2 ^ 32) :
    ∃ buf, (finalizeMurfStream s).2 = some buf ∧
      buf.length = s.chunks.flatten.length ∧
      readLE32 buf 4 = 36 + (s.chunks.flatten.length - 44) ∧
      readLE32 buf 40 = s.chunks.flatten.length - 44 := by
  have hL : 44 ≤ s.chunks.flatten.length := by
    rw [hc]
    simp only [List.flatten_cons, List.length_append]
    omega
  set L := s.chunks.flatten.length with hLdef
  have hne : s.chunks.isEmpty = false := by rw [hc]; rfl
  have hout : (finalizeMurfStream s).2 =
      some (setUint32LE (setUint32LE s.chunks.flatten 4 (36 + (L - 44))) 40 (L - 44)) := by
    unfold finalizeMurfStream
    rw [hctx, hne]
    simp only [Bool.not_true, Bool.false_or, Bool.false_eq_true, if_false, hc]
    rw [if_pos (by simp [hlen, hriff])]
    rw [← hc]
  refine ⟨_, hout, ?_, ?_, ?_⟩
  · rw [length_setUint32LE, length_setUint32LE]
  · rw [readLE32_setUint32LE_disjoint _ _ _ _ (by omega),
        readLE32_setUint32LE_self _ _ _ (by omega)]
    omega
  · rw [readLE32_setUint32LE_self _ _ _ (by rw [length_setUint32LE]; omega)]
    omega

/-- Concrete run of the header repair: a 44-byte `RIFF` header fragment
followed by a 4-byte payload fragment yields a 48-byte buffer whose
ChunkSize field reads 40 and whose Subchunk2Size field reads 4. -/
theorem finalize_patches_riff_sizes_witness :
    ∃ buf,
      (finalizeMurfStream
        ⟨true, [[0x52, 0x49, 0x46, 0x46] ++ List.replicate 40 0, [9, 9, 9, 9]],
          true, false⟩).2 = some buf ∧
      buf.length = 48 ∧ readLE32 buf 4 = 40 ∧ readLE32 buf 40 = 4 := by
  have h := finalize_patches_riff_sizes
    ⟨true, [[0x52, 0x49, 0x46, 0x46] ++ List.replicate 40 0, [9, 9, 9, 9]], true, false⟩
    ([0x52, 0x49, 0x46, 0x46] ++ List.replicate 40 0) [[9, 9, 9, 9]]
    rfl rfl (by simp) (by decide) (by simp)
  simpa using h

theorem tts_chunk_preserves_active_session_witness :
    (handleTtsChunk ⟨true, [[0, 1]], true, false⟩ [2, 3]).2 = false ∧
    (handleTtsChunk ⟨true, [[0, 1]], true, false⟩ [2, 3]).1 =
      pushMurfAudioChunk ⟨true, [[0, 1]], true, false⟩ [2, 3] ∧
    (∃ c, (handleTtsChunk ⟨true, [[0, 1]], true, false⟩ [2, 3]).1.chunks =
      [[0, 1]] ++ [c]) ∧
    (∀ (s' : MurfState) (b' : List Nat),
        (handleTtsChunk s' b').2 = true ↔ s'.playing = false) :=
  tts_chunk_preserves_active_session ⟨true, [[0, 1]], true, false⟩ [2, 3] rfl

/-! ### Idempotence of normalization (C4) -/

/-- Is the head (if any) a non-whitespace character? -/
def headNonWs : List Char → Bool
  | [] => true
  | c :: _ => !jsWhitespace c

/-- Every whitespace character is a plain space and no two whitespace
characters are adjacent: the shape of `collapseWs` output. -/
def sepF : List Char → Bool
  | [] => true
  | c :: rest => (!jsWhitespace c || (c == ' ' && headNonWs rest)) && sepF rest

theorem mem_collapseAux {c : Char} :
    ∀ (b : Bool) (l : List Char), c ∈ collapseAux b l →
      c = ' ' ∨ (c ∈ l ∧ jsWhitespace c = false) := by
  intro b l
  induction l generalizing b with
  | nil => intro h; simp [collapseAux] at h
  | cons d rest ih =>
      intro h
      by_cases hd : jsWhitespace d
      · rcases b with _ | _
        · simp only [collapseAux, hd, if_true, if_false, Bool.false_eq_true,
            List.mem_cons] at h
          rcases h with h | h
          · exact Or.inl h
          · rcases ih true h with h' | ⟨hm, hw⟩
            · exact Or.inl h'
            · exact Or.inr ⟨List.mem_cons_of_mem _ hm, hw⟩
        · simp only [collapseAux, hd, if_true] at h
          rcases ih true h with h' | ⟨hm, hw⟩
          · exact Or.inl h'
          · exact Or.inr ⟨List.mem_cons_of_mem _ hm, hw⟩
      · simp only [collapseAux, hd, if_false, Bool.false_eq_true, List.mem_cons] at h
        rcases h with h | h
        · subst h
          exact Or.inr ⟨List.mem_cons_self _ _, by simp [hd]⟩
        · rcases ih false h with h' | ⟨hm, hw⟩
          · exact Or.inl h'
          · exact Or.inr ⟨List.mem_cons_of_mem _ hm, hw⟩

theorem sepF_collapseAux (l : List Char) :
    sepF (collapseAux false l) = true ∧ sepF (collapseAux true l) = true ∧
      headNonWs (collapseAux true l) = true := by
  induction l with
  | nil => exact ⟨rfl, rfl, rfl⟩
  | cons c rest ih =>
      obtain ⟨ih1, ih2, ih3⟩ := ih
      by_cases hc : jsWhitespace c
      · have h1 : collapseAux false (c :: rest) = ' ' :: collapseAux true rest := by
          simp [collapseAux, hc]
        have h2 : collapseAux true (c :: rest) = collapseAux true rest := by
          simp [collapseAux, hc]
        refine ⟨?_, ?_, ?_⟩
        · rw [h1]
          simp [sepF, ih2, ih3, jsWhitespace]
        · rw [h2]; exact ih2
        · rw [h2]; exact ih3
      · have h1 : collapseAux false (c :: rest) = c :: collapseAux false rest := by
          simp [collapseAux, hc]
        have h2 : collapseAux true (c :: rest) = c :: collapseAux false rest := by
          simp [collapseAux, hc]
        refine ⟨?_, ?_, ?_⟩
        · rw [h1]; simp [sepF, hc, ih1]
        · rw [h2]; simp [sepF, hc, ih1]
        · rw [h2]; simp [headNonWs, hc]

theorem collapseAux_eq_self_of_sepF :
    ∀ l : List Char, sepF l = true → collapseAux false l = l := by
  intro l
  induction l with
  | nil => intro _; rfl
  | cons c rest ih =>
      intro h
      have hsep : sepF rest = true := by
        simp only [sepF, Bool.and_eq_true] at h
        exact h.2
      by_cases hc : jsWhitespace c
      · have hcond : (c == ' ') = true ∧ headNonWs rest = true := by
          simp only [sepF, Bool.and_eq_true, Bool.or_eq_true] at h
          rcases h.1 with h' | h'
          · simp [hc] at h'
          · exact h'
        have hsp : c = ' ' := by simpa using hcond.1
        have hhead : headNonWs rest = true := hcond.2
        have h1 : collapseAux false (c :: rest) = ' ' :: collapseAux true rest := by
          simp [collapseAux, hc]
        rw [h1, hsp]
        cases rest with
        | nil => rfl
        | cons d rest' =>
            have hd : jsWhitespace d = false := by
              simpa [headNonWs] using hhead
            have h2 : collapseAux true (d :: rest') = d :: collapseAux false rest' := by
              simp [collapseAux, hd]
            have h3 : collapseAux false (d :: rest') = d :: collapseAux false rest' := by
              simp [collapseAux, hd]
            have h4 := ih hsep
            rw [h3] at h4
            have h5 : collapseAux false rest' = rest' := by injection h4
            rw [h2, h5]
      · have h1 : collapseAux false (c :: rest) = c :: collapseAux false rest := by
          simp [collapseAux, hc]
        rw [h1, ih hsep]

theorem sepF_dropWhile (l : List Char) (h : sepF l = true) :
    sepF (l.dropWhile jsWhitespace) = true := by
  induction l with
  | nil => exact h
  | cons c rest ih =>
      have hsep : sepF rest = true := by
        simp only [sepF, Bool.and_eq_true] at h
        exact h.2
      by_cases hc : jsWhitespace c
      · rw [List.dropWhile_cons_of_pos (by simpa using hc)]
        exact ih hsep
      · rwa [List.dropWhile_cons_of_neg (by simpa using hc)]

theorem headNonWs_dropWhile (l : List Char) :
    headNonWs (l.dropWhile jsWhitespace) = true := by
  induction l with
  | nil => rfl
  | cons c rest ih =>
      by_cases hc : jsWhitespace c
      · rw [List.dropWhile_cons_of_pos (by simpa using hc)]
        exact ih
      · rw [List.dropWhile_cons_of_neg (by simpa using hc)]
        simpa [headNonWs] using hc

theorem dropWhile_eq_self_of_headNonWs (l : List Char) (h : headNonWs l = true) :
    l.dropWhile jsWhitespace = l := by
  cases l with
  | nil => rfl
  | cons c rest =>
      have hc : jsWhitespace c = false := by simpa [headNonWs] using h
      rw [List.dropWhile_cons_of_neg (by simp [hc])]

theorem dropTrailingWs_cons_shape (c : Char) (rest : List Char) :
    dropTrailingWs (c :: rest) = [] ∨
      dropTrailingWs (c :: rest) = c :: dropTrailingWs rest := by
  by_cases h : (dropTrailingWs rest).isEmpty && jsWhitespace c
  · left; simp [dropTrailingWs, h]
  · right; simp [dropTrailingWs, h]

theorem headNonWs_dropTrailingWs (l : List Char) (h : headNonWs l = true) :
    headNonWs (dropTrailingWs l) = true := by
  cases l with
  | nil => rfl
  | cons c rest =>
      rcases dropTrailingWs_cons_shape c rest with h' | h' <;> rw [h']
      · rfl
      · simpa [headNonWs] using h

theorem sepF_dropTrailingWs (l : List Char) (h : sepF l = true) :
    sepF (dropTrailingWs l) = true := by
  induction l with
  | nil => exact h
  | cons c rest ih =>
      have hsep : sepF rest = true := by
        simp only [sepF, Bool.and_eq_true] at h
        exact h.2
      have hr := ih hsep
      by_cases hcut : (dropTrailingWs rest).isEmpty && jsWhitespace c
      · simp only [dropTrailingWs, hcut, if_true]
        rfl
      · have hres : dropTrailingWs (c :: rest) = c :: dropTrailingWs rest := by
          simp [dropTrailingWs, hcut]
        rw [hres]
        by_cases hc : jsWhitespace c
        · have hcond : (c == ' ') = true ∧ headNonWs rest = true := by
            simp only [sepF, Bool.and_eq_true, Bool.or_eq_true] at h
            rcases h.1 with h' | h'
            · simp [hc] at h'
            · exact h'
          have hne : (dropTrailingWs rest).isEmpty = false := by
            rcases hb : (dropTrailingWs rest).isEmpty
            · rfl
            · exfalso; rw [hb] at hcut; simp [hc] at hcut
          have hheadr : headNonWs (dropTrailingWs rest) = true := by
            cases rest with
            | nil => simp [dropTrailingWs] at hne
            | cons d rest' => exact headNonWs_dropTrailingWs _ hcond.2
          simp only [sepF, Bool.and_eq_true, Bool.or_eq_true]
          exact ⟨Or.inr (by simp [hcond.1, hheadr]), hr⟩
        · simp only [sepF, Bool.and_eq_true, Bool.or_eq_true]
          exact ⟨Or.inl (by simp [hc]), hr⟩

theorem dropTrailingWs_idem (l : List Char) :
    dropTrailingWs (dropTrailingWs l) = dropTrailingWs l := by
  induction l with
  | nil => rfl
  | cons c rest ih =>
      by_cases hcut : (dropTrailingWs rest).isEmpty && jsWhitespace c
      · simp [dropTrailingWs, hcut]
      · have hres : dropTrailingWs (c :: rest) = c :: dropTrailingWs rest := by
          simp [dropTrailingWs, hcut]
        rw [hres]
        have : dropTrailingWs (c :: dropTrailingWs rest) =
            c :: dropTrailingWs (dropTrailingWs rest) := by
          simp only [dropTrailingWs]
          rw [ih]
          simp only [hcut, if_false, Bool.false_eq_true]
        rw [this, ih]

theorem mem_dropTrailingWs {c : Char} :
    ∀ l : List Char, c ∈ dropTrailingWs l → c ∈ l := by
  intro l
  induction l with
  | nil => intro h; exact h
  | cons d rest ih =>
      intro h
      rcases dropTrailingWs_cons_shape d rest with h' | h' <;> rw [h'] at h
      · cases h
      · rcases List.mem_cons.mp h with h'' | h''
        · exact h'' ▸ List.mem_cons_self _ _
        · exact List.mem_cons_of_mem _ (ih h'')

theorem mem_trimWs {c : Char} (l : List Char) (h : c ∈ trimWs l) : c ∈ l := by
  have h1 : c ∈ l.dropWhile jsWhitespace := mem_dropTrailingWs _ h
  exact (List.dropWhile_sublist _).mem h1

theorem trimWs_idem (l : List Char) : trimWs (trimWs l) = trimWs l := by
  have hhead : headNonWs (trimWs l) = true :=
    headNonWs_dropTrailingWs _ (headNonWs_dropWhile l)
  show dropTrailingWs ((trimWs l).dropWhile jsWhitespace) = trimWs l
  rw [dropWhile_eq_self_of_headNonWs _ hhead]
  exact dropTrailingWs_idem _

theorem sepF_trimWs (l : List Char) (h : sepF l = true) :
    sepF (trimWs l) = true :=
  sepF_dropTrailingWs _ (sepF_dropWhile _ h)

/-- C4 counterexample: on `"a ​ b"` (letter, space, zero-width
space, space, letter) normalization is not idempotent.  The whitespace
collapse sees two separate single-space runs around the zero-width space;
stripping the zero-width space afterwards leaves two adjacent spaces,
which a second normalization collapses to one. -/
theorem normalizeTranscript_not_idempotent :
    normalizeTranscript (normalizeTranscript
        ['a', ' ', Char.ofNat 0x200B, ' ', 'b']) ≠
      normalizeTranscript ['a', ' ', Char.ofNat 0x200B, ' ', 'b'] := by
  decide

/-- C4 amended: normalization is idempotent on every string containing no
character in U+200B..U+200D.  (A BOM U+FEFF is harmless because it is
also regex whitespace and is consumed by the collapse pass; the genuinely
problematic characters are the zero-width space/non-joiner/joiner.) -/
theorem normalizeTranscript_idem_of_no_zero_width (l : List Char)
    (h : ∀ c ∈ l, ¬ (0x200B ≤ c.toNat ∧ c.toNat ≤ 0x200D)) :
    normalizeTranscript (normalizeTranscript l) = normalizeTranscript l := by
  have hnz : ∀ c ∈ collapseWs l, zeroWidth c = false := by
    intro c hc
    rcases mem_collapseAux false l hc with h' | ⟨hm, hw⟩
    · subst h'; rfl
    · rcases hzw : zeroWidth c
      · rfl
      · exfalso
        simp only [zeroWidth, Bool.or_eq_true, Bool.and_eq_true,
          decide_eq_true_eq, beq_iff_eq] at hzw
        rcases hzw with ⟨h1, h2⟩ | h1
        · exact h c hm ⟨h1, h2⟩
        · simp [jsWhitespace, h1] at hw
  have hstrip : stripZeroWidth (collapseWs l) = collapseWs l := by
    unfold stripZeroWidth
    apply List.filter_eq_self.mpr
    intro c hc
    simp [hnz c hc]
  have hnorm : normalizeTranscript l = trimWs (collapseWs l) := by
    unfold normalizeTranscript
    rw [hstrip]
  have hsep : sepF (trimWs (collapseWs l)) = true :=
    sepF_trimWs _ (sepF_collapseAux l).1
  have hcr : collapseWs (trimWs (collapseWs l)) = trimWs (collapseWs l) :=
    collapseAux_eq_self_of_sepF _ hsep
  have hstrip2 : stripZeroWidth (trimWs (collapseWs l)) = trimWs (collapseWs l) := by
    unfold stripZeroWidth
    apply List.filter_eq_self.mpr
    intro c hc
    simp [hnz c (mem_trimWs _ hc)]
  calc normalizeTranscript (normalizeTranscript l)
      = trimWs (stripZeroWidth (collapseWs (trimWs (collapseWs l)))) := by
        rw [hnorm]; rfl
    _ = trimWs (trimWs (collapseWs l)) := by rw [hcr, hstrip2]
    _ = trimWs (collapseWs l) := trimWs_idem _
    _ = normalizeTranscript l := hnorm.symm

theorem normalizeTranscript_idem_of_no_zero_width_witness :
    normalizeTranscript (normalizeTranscript ['h', 'i', ' ', ' ', 'a']) =
      normalizeTranscript ['h', 'i', ' ', ' ', 'a'] :=
  normalizeTranscript_idem_of_no_zero_width ['h', 'i', ' ', ' ', 'a'] (by decide)

/-! ### Chat bubbles: `addMsg` (script.js lines 381-410) -/

/-- The two chat roles passed to `addMsg`. -/
inductive Role where
  | user
  | agent
  deriving Repr, DecidableEq

/-- The placeholder text used when `addMsg` receives no usable text. -/
def fallbackText : Role → List Char
  | Role.user => "[Unrecognized]".toList
  | Role.agent => "[No response]".toList

/-- The bubble text computed by `addMsg(role, text)`:
`(text && String(text).trim()) || (role === 'user' ? '[Unrecognized]' :
'[No response]')`.  A `null` text, an empty text, and a text whose trim
is empty all fall back to the placeholder; any other text is rendered
trimmed. -/
def addMsg (role : Role) (text : Option (List Char)) : List Char :=
  match text with
  | none => fallbackText role
  | some t =>
      if t.isEmpty then fallbackText role
      else if (trimWs t).isEmpty then fallbackText role
      else trimWs t

/-- C10 counterexample: `addMsg('user', ' hi ')` renders the trimmed text
`"hi"`, not the given text `" hi "`. -/
theorem addMsg_not_given_text :
    addMsg Role.user (some [' ', 'h', 'i', ' ']) ≠ [' ', 'h', 'i', ' '] := by
  decide

/-- C10 amended: null, empty, and whitespace-only texts render the
role-specific placeholder; any other text renders as the given text with
leading and trailing whitespace removed. -/
theorem addMsg_bubble_text (role : Role) (t : List Char) :
    addMsg role none = fallbackText role ∧
    (trimWs t = [] → addMsg role (some t) = fallbackText role) ∧
    (trimWs t ≠ [] → addMsg role (some t) = trimWs t) ∧
    fallbackText Role.user = "[Unrecognized]".toList ∧
    fallbackText Role.agent = "[No response]".toList := by
  refine ⟨rfl, ?_, ?_, rfl, rfl⟩
  · intro h
    show (if t.isEmpty then fallbackText role
        else if (trimWs t).isEmpty then fallbackText role else trimWs t) =
      fallbackText role
    by_cases he : t.isEmpty = true
    · rw [if_pos he]
    · rw [if_neg he, if_pos (by simp [h])]
  · intro h
    have he : t.isEmpty = false := by
      rcases ht : t.isEmpty
      · rfl
      · exfalso
        apply h
        rw [List.isEmpty_iff] at ht
        simp [ht, trimWs, dropTrailingWs]
    show (if t.isEmpty then fallbackText role
        else if (trimWs t).isEmpty then fallbackText role else trimWs t) =
      trimWs t
    rw [if_neg (by simp [he]), if_neg (by simp [h])]

theorem addMsg_bubble_text_witness :
    addMsg Role.user (some [' ', 'h', 'i', ' ']) = trimWs [' ', 'h', 'i', ' '] :=
  ((addMsg_bubble_text Role.user [' ', 'h', 'i', ' ']).2.2.1 (by decide))

/-! ### Transcript reconciler (script.js lines 517-574)

Inbound messages relevant to the reconciler: raw partial-transcript text
(any string that does not match a recognized JSON control message) and the
`turn_end` event with its optional `transcript` and `llm_response`
fields. -/

/-- A reconciler-visible inbound message. -/
inductive StreamMsg where
  | text (raw : List Char)
  | turnEnd (transcript : Option (List Char)) (llmResponse : Option (List Char))
  deriving Repr

/-- Reconciler state: the live bubble's rendered text (if a live row
exists), `lastPartial`, and the rendered texts of finalized user rows and
agent rows in creation order. -/
structure RecState where
  liveBubble : Option (List Char)
  lastSeen : List Char
  userRows : List (List Char)
  agentRows : List (List Char)
  deriving Repr

/-- State before any message: no live row, `lastPartial = ''`. -/
def recInit : RecState := ⟨none, [], [], []⟩

/-- The raw-text path of `streamWS.onmessage`: skip when `raw.trim()` is
falsy; otherwise normalize, and when the normalized text differs from
`lastPartial`, create the live row (via `addMsg`) or overwrite its bubble
text in place. -/
def onTextMsg (st : RecState) (raw : List Char) : RecState :=
  if trimWs raw = [] then st
  else
    let text := normalizeTranscript raw
    if text = st.lastSeen then st
    else
      match st.liveBubble with
      | none =>
          { st with liveBubble := some (addMsg Role.user (some text)),
                    lastSeen := text }
      | some _ => { st with liveBubble := some text, lastSeen := text }

/-- The `turn_end` branch: resolve the final text from the event's
`transcript` field when truthy, else from `lastPartial` when truthy, else
`null`.  If no live row exists and there is a final text, create the row
via `addMsg`; if a live row exists and there is a final text, overwrite
its bubble.  A live row existing after that is marked final (its text
joins `userRows`).  A truthy `llm_response` appends an agent row.  Reset
the live row and `lastPartial`. -/
def onTurnEnd (st : RecState) (transcript llm : Option (List Char)) : RecState :=
  let finalText : Option (List Char) :=
    match transcript with
    | some t =>
        if t ≠ [] then some (normalizeTranscript t)
        else if st.lastSeen ≠ [] then some st.lastSeen else none
    | none => if st.lastSeen ≠ [] then some st.lastSeen else none
  let live1 : Option (List Char) :=
    match st.liveBubble, finalText with
    | none, some f => some (addMsg Role.user (some f))
    | some _, some f => some f
    | lb, none => lb
  { liveBubble := none
    lastSeen := []
    userRows := st.userRows ++ (match live1 with | some b => [b] | none => [])
    agentRows := st.agentRows ++ (match llm with
      | some r => if r ≠ [] then [addMsg Role.agent (some r)] else []
      | none => []) }

/-- Dispatch one inbound message. -/
def recStep (st : RecState) (m : StreamMsg) : RecState :=
  match m with
  | StreamMsg.text raw => onTextMsg st raw
  | StreamMsg.turnEnd tr llm => onTurnEnd st tr llm

/-- Process a whole inbound message sequence in arrival order. -/
def recRun (st : RecState) (ms : List StreamMsg) : RecState := ms.foldl recStep st

theorem trimWs_normalizeTranscript (l : List Char) :
    trimWs (normalizeTranscript l) = normalizeTranscript l := by
  unfold normalizeTranscript
  exact trimWs_idem _

theorem collapseAux_of_all_ws (l : List Char) (h : ∀ c ∈ l, jsWhitespace c = true) :
    collapseAux true l = [] ∧
      collapseAux false l = if l.isEmpty then [] else [' '] := by
  induction l with
  | nil => exact ⟨rfl, rfl⟩
  | cons c rest ih =>
      have hc : jsWhitespace c = true := h c (List.mem_cons_self _ _)
      have hrest : ∀ c ∈ rest, jsWhitespace c = true :=
        fun d hd => h d (List.mem_cons_of_mem _ hd)
      obtain ⟨ih1, _⟩ := ih hrest
      constructor
      · rw [show collapseAux true (c :: rest) = collapseAux true rest by
          simp [collapseAux, hc]]
        exact ih1
      · rw [show collapseAux false (c :: rest) = ' ' :: collapseAux true rest by
          simp [collapseAux, hc]]
        rw [ih1]
        rfl

theorem normalizeTranscript_eq_nil_of_trimWs_nil (l : List Char)
    (h : trimWs l = []) : normalizeTranscript l = [] := by
  have hdw : l.dropWhile jsWhitespace = [] := by
    rcases hd : l.dropWhile jsWhitespace with _ | ⟨c, t⟩
    · rfl
    · exfalso
      have hh : headNonWs (c :: t) = true := hd ▸ headNonWs_dropWhile l
      have hc : jsWhitespace c = false := by simpa [headNonWs] using hh
      have : dropTrailingWs (c :: t) = [] := by
        unfold trimWs at h
        rw [hd] at h
        exact h
      rcases dropTrailingWs_cons_shape c t with h' | h'
      · unfold dropTrailingWs at h'
        simp only [hc, Bool.and_false, if_false, Bool.false_eq_true] at h'
        exact absurd h' (by simp)
      · rw [h'] at this
        cases this
  have hws : ∀ c ∈ l, jsWhitespace c = true := List.dropWhile_eq_nil_iff.mp hdw
  obtain ⟨_, h2⟩ := collapseAux_of_all_ws l hws
  unfold normalizeTranscript collapseWs
  rw [h2]
  rcases l.isEmpty
  · rfl
  · rfl

/-- Reconciler invariant: whenever `lastPartial` is nonempty, the live
bubble exists and shows exactly `lastPartial`; when no live row exists,
`lastPartial` is empty. -/
def TInv (st : RecState) : Prop :=
  (st.lastSeen ≠ [] → st.liveBubble = some st.lastSeen) ∧
  (st.liveBubble = none → st.lastSeen = [])

theorem addMsg_some_normalized (t : List Char) (h1 : trimWs t = t) (h2 : t ≠ []) :
    addMsg Role.user (some t) = t := by
  show (if t.isEmpty then fallbackText Role.user
      else if (trimWs t).isEmpty then fallbackText Role.user else trimWs t) = t
  rw [if_neg (by simp [List.isEmpty_iff, h2]),
      if_neg (by simp [List.isEmpty_iff, h1, h2]), h1]

theorem onTextMsg_inv (st : RecState) (raw : List Char) (h : TInv st) :
    TInv (onTextMsg st raw) ∧ (onTextMsg st raw).userRows = st.userRows ∧
      (onTextMsg st raw).agentRows = st.agentRows := by
  unfold onTextMsg
  by_cases h1 : trimWs raw = []
  · rw [if_pos h1]; exact ⟨h, rfl, rfl⟩
  · rw [if_neg h1]
    by_cases h2 : normalizeTranscript raw = st.lastSeen
    · rw [if_pos h2]; exact ⟨h, rfl, rfl⟩
    · rw [if_neg h2]
      rcases hlb : st.liveBubble with _ | b
      · have hls : st.lastSeen = [] := h.2 hlb
        have htext : normalizeTranscript raw ≠ [] := by rw [hls] at h2; exact h2
        refine ⟨⟨?_, ?_⟩, rfl, rfl⟩
        · intro _
          show some (addMsg Role.user (some (normalizeTranscript raw))) =
            some (normalizeTranscript raw)
          rw [addMsg_some_normalized _ (trimWs_normalizeTranscript raw) htext]
        · intro hcontra
          cases hcontra
      · refine ⟨⟨?_, ?_⟩, rfl, rfl⟩
        · intro _; rfl
        · intro hcontra
          cases hcontra

theorem onTextMsg_lastSeen (st : RecState) (raw : List Char)
    (h : trimWs raw ≠ []) :
    (onTextMsg st raw).lastSeen = normalizeTranscript raw := by
  unfold onTextMsg
  rw [if_neg h]
  by_cases h2 : normalizeTranscript raw = st.lastSeen
  · rw [if_pos h2]; exact h2.symm
  · rw [if_neg h2]
    rcases st.liveBubble <;> rfl

theorem recRun_texts_inv (msgs : List (List Char)) :
    ∀ st : RecState, TInv st →
      TInv (recRun st (msgs.map StreamMsg.text)) ∧
      (recRun st (msgs.map StreamMsg.text)).userRows = st.userRows ∧
      (recRun st (msgs.map StreamMsg.text)).agentRows = st.agentRows := by
  induction msgs with
  | nil => intro st h; exact ⟨h, rfl, rfl⟩
  | cons m rest ih =>
      intro st h
      have hstep : recRun st ((m :: rest).map StreamMsg.text) =
          recRun (onTextMsg st m) (rest.map StreamMsg.text) := rfl
      obtain ⟨hi, hu, ha⟩ := onTextMsg_inv st m h
      obtain ⟨hi', hu', ha'⟩ := ih (onTextMsg st m) hi
      exact ⟨by rw [hstep]; exact hi',
        by rw [hstep, hu', hu], by rw [hstep, ha', ha]⟩

theorem onTurnEnd_userRows_absent_transcript (st : RecState)
    (llm : Option (List Char)) (h1 : st.lastSeen ≠ [])
    (h2 : st.liveBubble = some st.lastSeen) :
    (onTurnEnd st none llm).userRows = st.userRows ++ [st.lastSeen] := by
  unfold onTurnEnd
  rw [h2]
  simp only [h1, ne_eq, not_false_iff, if_true, if_pos h1]

/-- C5 counterexample: partials `"hi"` then `" "` followed by `turn_end`
with no transcript leave the finalized user row showing `"hi"` — the
whitespace-only last partial is skipped by the `raw.trim()` guard — while
the normalization of the last partial `" "` is the empty string. -/
theorem turn_end_final_not_last_raw :
    (recRun recInit [StreamMsg.text ['h', 'i'], StreamMsg.text [' '],
        StreamMsg.turnEnd none none]).userRows = [['h', 'i']] ∧
    normalizeTranscript [' '] = [] ∧
    (['h', 'i'] : List Char) ≠ [] := by
  decide

/-- C5 amended: for partials `P1..Pn` followed by a `turn_end` whose
transcript field is absent, if the last partial has a nonempty
normalization then the single finalized user row shows exactly
`normalize(Pn)`.  (A trailing partial that is whitespace-only is skipped
by the `raw.trim()` guard, so the row keeps the previous partial
instead.) -/
theorem turn_end_shows_last_normalized (ps : List (List Char)) (pn : List Char)
    (llm : Option (List Char)) (h : normalizeTranscript pn ≠ []) :
    (recRun recInit ((ps ++ [pn]).map StreamMsg.text ++
        [StreamMsg.turnEnd none llm])).userRows = [normalizeTranscript pn] := by
  have htrim : trimWs pn ≠ [] := fun hc =>
    h (normalizeTranscript_eq_nil_of_trimWs_nil pn hc)
  have hsplit : recRun recInit ((ps ++ [pn]).map StreamMsg.text ++
      [StreamMsg.turnEnd none llm]) =
      onTurnEnd (onTextMsg (recRun recInit (ps.map StreamMsg.text)) pn) none llm := by
    unfold recRun
    simp only [List.map_append, List.foldl_append, List.map_cons, List.map_nil]
    rfl
  obtain ⟨hinv, hu, _⟩ := recRun_texts_inv ps recInit
    ⟨fun h' => absurd rfl h', fun _ => rfl⟩
  have hls : (onTextMsg (recRun recInit (ps.map StreamMsg.text)) pn).lastSeen =
      normalizeTranscript pn :=
    onTextMsg_lastSeen _ pn htrim
  obtain ⟨hinv2, hu2, _⟩ := onTextMsg_inv (recRun recInit (ps.map StreamMsg.text)) pn hinv
  have hlb := hinv2.1 (by rw [hls]; exact h)
  have hrows := onTurnEnd_userRows_absent_transcript _ llm (by rw [hls]; exact h) hlb
  rw [hsplit, hrows, hu2, hu, hls]
  rfl

theorem turn_end_shows_last_normalized_witness :
    (recRun recInit (([['y', 'o']] ++ [['h', 'i']]).map StreamMsg.text ++
        [StreamMsg.turnEnd none none])).userRows =
      [normalizeTranscript ['h', 'i']] :=
  turn_end_shows_last_normalized [['y', 'o']] ['h', 'i'] none (by decide)

/-! ### Autoplay unlock gate (script.js lines 133-155) -/

/-- Gate state: the `audioUnlocked` flag and the single
`pendingAutoPlayUrl` slot. -/
structure GateState where
  unlocked : Bool
  pending : Option (List Char)
  deriving Repr, DecidableEq

/-- Observable side effects of `unlockAudioIfNeeded`. -/
inductive GateAction where
  | probe
  | play (url : List Char)
  deriving Repr, DecidableEq

/-- `playAgentAudio(url)` while the gate is locked: `pendingAutoPlayUrl =
url`, overwriting any earlier unconsumed request. -/
def deferRequest (s : GateState) (url : List Char) : GateState :=
  { s with pending := some url }

/-- `unlockAudioIfNeeded()`: return immediately when already unlocked.
Otherwise, when an AudioContext constructor exists, start the one-sample
silent probe (whether or not it then throws); in every path set
`audioUnlocked = true` and flush the pending URL (if any) through
`playAgentAudio(u, true)`. -/
def unlockAudioIfNeeded (hasCtx probeThrows : Bool) (s : GateState) :
    GateState × List GateAction :=
  if s.unlocked then (s, [])
  else
    let flush : List GateAction :=
      match s.pending with
      | some u => [GateAction.play u]
      | none => []
    if hasCtx then
      if probeThrows then ({ unlocked := true, pending := none }, GateAction.probe :: flush)
      else ({ unlocked := true, pending := none }, GateAction.probe :: flush)
    else ({ unlocked := true, pending := none }, flush)

/-- The URLs actually handed to playback by a list of gate actions. -/
def playedUrls (acts : List GateAction) : List (List Char) :=
  acts.filterMap (fun a =>
    match a with
    | GateAction.play u => some u
    | GateAction.probe => none)

/-- C9: `unlock()` is idempotent — a second call leaves the state
unchanged and performs nothing; after any call the gate is unlocked no
matter whether the silent probe ran or threw; an actual unlock flushes
exactly the pending request (the slot is last-write-wins) and clears it.
-/
theorem unlock_idempotent (hasCtx p1 hasCtx2 p2 : Bool) (s : GateState) :
    (unlockAudioIfNeeded hasCtx p1 s).1.unlocked = true ∧
    unlockAudioIfNeeded hasCtx2 p2 (unlockAudioIfNeeded hasCtx p1 s).1 =
      ((unlockAudioIfNeeded hasCtx p1 s).1, []) ∧
    (s.unlocked = false →
      playedUrls (unlockAudioIfNeeded hasCtx p1 s).2 = s.pending.toList ∧
      (unlockAudioIfNeeded hasCtx p1 s).1.pending = none) ∧
    (s.unlocked = true → unlockAudioIfNeeded hasCtx p1 s = (s, [])) ∧
    (∀ u1 u2 : List Char, (deferRequest (deferRequest s u1) u2).pending = some u2) := by
  rcases hu : s.unlocked <;>
    rcases hp : s.pending <;>
      rcases hasCtx <;> rcases p1 <;>
        simp [unlockAudioIfNeeded, deferRequest, playedUrls, hu, hp]

theorem unlock_idempotent_witness :
    (unlockAudioIfNeeded true false ⟨false, some ['u']⟩).1.unlocked = true ∧
    playedUrls (unlockAudioIfNeeded true false ⟨false, some ['u']⟩).2 = [['u']] ∧
    (unlockAudioIfNeeded true false ⟨false, some ['u']⟩).1.pending = none :=
  ⟨(unlock_idempotent true false true false ⟨false, some ['u']⟩).1,
    ((unlock_idempotent true false true false ⟨false, some ['u']⟩).2.2.1 rfl).1,
    ((unlock_idempotent true false true false ⟨false, some ['u']⟩).2.2.1 rfl).2⟩

/-! ### Playback retry supervisor (script.js lines 159-199) -/

/-- `retryPlay(attempt)`: when `attempt > 3`, store the URL as the
pending autoplay request and stop; otherwise wait `250 * attempt`
milliseconds, try `agentAudio.play()` (its outcome given by
`outcome attempt`), stop on success, recurse with `attempt + 1` on
rejection.  Returns the list of delays of the retries performed, whether
a retry succeeded, and the pending URL handed to the unlock gate. -/
def retryPlay (outcome : Nat → Bool) (url : List Char) (attempt : Nat) :
    List Nat × Bool × Option (List Char) :=
  if h : attempt > 3 then ([], false, some url)
  else if outcome attempt then ([250 * attempt], true, none)
  else
    let r := retryPlay outcome url (attempt + 1)
    (250 * attempt :: r.1, r.2.1, r.2.2)
termination_by 4 - attempt
decreasing_by omega

/-- `playAgentAudio` after `onloadeddata`: one immediate play attempt;
on rejection enter `retryPlay(1)`. -/
def playAgentAudio (initialOutcome : Bool) (outcome : Nat → Bool)
    (url : List Char) : List Nat × Bool × Option (List Char) :=
  if initialOutcome then ([], true, none) else retryPlay outcome url 1

theorem retryPlay_base (outcome : Nat → Bool) (url : List Char) (a : Nat)
    (h : a > 3) : retryPlay outcome url a = ([], false, some url) := by
  unfold retryPlay
  rw [dif_pos h]

theorem retryPlay_hit (outcome : Nat → Bool) (url : List Char) (a : Nat)
    (h : ¬ a > 3) (ho : outcome a = true) :
    retryPlay outcome url a = ([250 * a], true, none) := by
  unfold retryPlay
  rw [dif_neg h, if_pos ho]

theorem retryPlay_miss (outcome : Nat → Bool) (url : List Char) (a : Nat)
    (h : ¬ a > 3) (ho : outcome a = false) :
    retryPlay outcome url a = (250 * a :: (retryPlay outcome url (a + 1)).1,
      (retryPlay outcome url (a + 1)).2.1, (retryPlay outcome url (a + 1)).2.2) := by
  conv_lhs => rw [retryPlay]
  rw [dif_neg h, if_neg (by simp [ho])]

theorem retryPlay_one_eval (outcome : Nat → Bool) (url : List Char) :
    retryPlay outcome url 1 =
      if outcome 1 then ([250], true, none)
      else if outcome 2 then ([250, 500], true, none)
      else if outcome 3 then ([250, 500, 750], true, none)
      else ([250, 500, 750], false, some url) := by
  have e4 := retryPlay_base outcome url 4 (by omega)
  rcases h1 : outcome 1
  · rcases h2 : outcome 2
    · rcases h3 : outcome 3
      · rw [retryPlay_miss _ _ 1 (by omega) h1, retryPlay_miss _ _ 2 (by omega) h2,
            retryPlay_miss _ _ 3 (by omega) h3, e4]
        norm_num [h1, h2, h3]
      · rw [retryPlay_miss _ _ 1 (by omega) h1, retryPlay_miss _ _ 2 (by omega) h2,
            retryPlay_hit _ _ 3 (by omega) h3]
        norm_num [h1, h2, h3]
    · rw [retryPlay_miss _ _ 1 (by omega) h1, retryPlay_hit _ _ 2 (by omega) h2]
      norm_num [h1, h2]
  · rw [retryPlay_hit _ _ 1 (by omega) h1]
    norm_num [h1]

/-- C8: the supervisor performs at most 3 delayed retries after the
initial attempt, the delay before the i-th retry is `i * 250` ms; when
every attempt is rejected there are exactly the delays 250, 500, 750,
no success, and the URL is handed to the unlock gate as the pending
request instead of a fourth immediate retry; a success at retry `k` ends
the sequence there with nothing left pending; a success on the initial
attempt performs no retries at all. -/
theorem retry_supervisor_caps (url : List Char) (outcome : Nat → Bool) :
    (retryPlay outcome url 1).1.length ≤ 3 ∧
    (∀ i, i < (retryPlay outcome url 1).1.length →
        (retryPlay outcome url 1).1.getD i 0 = 250 * (i + 1)) ∧
    ((∀ k, outcome k = false) →
      retryPlay outcome url 1 = ([250, 500, 750], false, some url)) ∧
    (∀ k, 1 ≤ k → k ≤ 3 → outcome k = true →
      (∀ j, 1 ≤ j → j < k → outcome j = false) →
      (retryPlay outcome url 1).2.1 = true ∧
      (retryPlay outcome url 1).1.length = k ∧
      (retryPlay outcome url 1).2.2 = none) ∧
    playAgentAudio true outcome url = ([], true, none) := by
  have key : retryPlay outcome url 1 = ([250], true, none) ∨
      retryPlay outcome url 1 = ([250, 500], true, none) ∨
      retryPlay outcome url 1 = ([250, 500, 750], true, none) ∨
      retryPlay outcome url 1 = ([250, 500, 750], false, some url) := by
    rw [retryPlay_one_eval]
    rcases h1 : outcome 1 <;> rcases h2 : outcome 2 <;> rcases h3 : outcome 3 <;>
      simp [h1, h2, h3]
  refine ⟨?_, ?_, ?_, ?_, rfl⟩
  · rcases key with hr | hr | hr | hr <;> rw [hr] <;> norm_num
  · intro i hi
    rcases key with hr | hr | hr | hr <;> rw [hr] <;> rw [hr] at hi <;>
      simp only [List.length_cons, List.length_nil] at hi <;>
      interval_cases i <;> norm_num
  · intro hall
    rw [retryPlay_one_eval]
    simp [hall 1, hall 2, hall 3]
  · intro k hk1 hk3 hk hprev
    rw [retryPlay_one_eval]
    interval_cases k
    · simp [hk]
    · have h1 : outcome 1 = false := hprev 1 (by omega) (by omega)
      simp [h1, hk]
    · have h1 : outcome 1 = false := hprev 1 (by omega) (by omega)
      have h2 : outcome 2 = false := hprev 2 (by omega) (by omega)
      simp [h1, h2, hk]

theorem retry_supervisor_caps_witness :
    retryPlay (fun _ => false) ['u'] 1 = ([250, 500, 750], false, some ['u']) :=
  (retry_supervisor_caps ['u'] (fun _ => false)).2.2.1 (fun _ => rfl)

/-! ### PCM framer (script.js lines 587-599)

`processor.onaudioprocess` converts each Float32 sample to a signed
16-bit little-endian integer.  Sample values are modelled as exact
rationals. -/

/-- `Math.max(-1, Math.min(1, inputData[i]))`. -/
def clampSample (x : ℚ) : ℚ := max (-1) (min 1 x)

/-- `s < 0 ? s * 0x8000 : s * 0x7FFF` applied to the clamped sample. -/
def scaleSample (x : ℚ) : ℚ :=
  let s := clampSample x
  if s < 0 then s * 32768 else s * 32767

/-- JavaScript number-to-integer conversion (`ToIntegerOrInfinity`):
truncation toward zero. -/
def truncTowardZero (q : ℚ) : Int := if q < 0 then ⌈q⌉ else ⌊q⌋

/-- The 16-bit pattern stored by `DataView.setInt16`: truncate, then
reduce mod 2^16. -/
def pcm16 (x : ℚ) : Nat := ((truncTowardZero (scaleSample x)) % 65536).toNat

/-- The whole outbound frame: two bytes per sample, low byte first
(little-endian), at byte offsets `2i` and `2i + 1`. -/
def processAudioFrame (input : List ℚ) : List Nat :=
  (input.map (fun x => [pcm16 x % 256, pcm16 x / 256])).flatten

/-- The signed 16-bit value encoded little-endian by two bytes. -/
def int16val (b0 b1 : Nat) : Int :=
  if b0 + 256 * b1 < 32768 then ((b0 + 256 * b1 : Nat) : Int)
  else ((b0 + 256 * b1 : Nat) : Int) - 65536

theorem trunc_scale_bounds (x : ℚ) :
    -32768 ≤ truncTowardZero (scaleSample x) ∧
      truncTowardZero (scaleSample x) ≤ 32767 := by
  have h1 : -1 ≤ clampSample x := le_max_left _ _
  have h2 : clampSample x ≤ 1 := by
    apply max_le
    · norm_num
    · exact min_le_left _ _
  unfold scaleSample truncTowardZero
  by_cases hneg : clampSample x < 0
  · simp only [hneg, if_true]
    have hq1 : (-32768 : ℚ) ≤ clampSample x * 32768 := by nlinarith
    have hq2 : clampSample x * 32768 < 0 :=
      mul_neg_of_neg_of_pos hneg (by norm_num)
    rw [if_pos hq2]
    constructor
    · have hc : ⌈(-32768 : ℚ)⌉ ≤ ⌈clampSample x * 32768⌉ := Int.ceil_le_ceil hq1
      have he : ((-32768 : ℚ)) = ((-32768 : ℤ) : ℚ) := by norm_num
      rw [he, Int.ceil_intCast] at hc
      omega
    · have : ⌈clampSample x * 32768⌉ ≤ (0 : ℤ) :=
        Int.ceil_le.mpr (by exact_mod_cast hq2.le)
      omega
  · simp only [hneg, if_false]
    push_neg at hneg
    have hq1 : (0 : ℚ) ≤ clampSample x * 32767 := mul_nonneg hneg (by norm_num)
    have hq2 : clampSample x * 32767 ≤ 32767 := by nlinarith
    rw [if_neg (not_lt.mpr hq1)]
    constructor
    · have := Int.floor_nonneg.mpr hq1
      omega
    · have hf : ⌊clampSample x * 32767⌋ ≤ ⌊(32767 : ℚ)⌋ := Int.floor_le_floor hq2
      have he : ⌊(32767 : ℚ)⌋ = (32767 : ℤ) := by
        rw [show (32767 : ℚ) = ((32767 : ℤ) : ℚ) by norm_num, Int.floor_intCast]
      omega

theorem int16val_pcm16 (x : ℚ) :
    int16val (pcm16 x % 256) (pcm16 x / 256) =
      truncTowardZero (scaleSample x) := by
  obtain ⟨hb1, hb2⟩ := trunc_scale_bounds x
  unfold pcm16 int16val
  split_ifs <;> omega

theorem processAudioFrame_cons (x : ℚ) (rest : List ℚ) :
    processAudioFrame (x :: rest) =
      pcm16 x % 256 :: pcm16 x / 256 :: processAudioFrame rest := by
  simp [processAudioFrame]

theorem processAudioFrame_length (input : List ℚ) :
    (processAudioFrame input).length = 2 * input.length := by
  induction input with
  | nil => rfl
  | cons x rest ih =>
      rw [processAudioFrame_cons]
      simp only [List.length_cons, ih]
      omega

theorem processAudioFrame_getD (input : List ℚ) :
    ∀ i, i < input.length →
      (processAudioFrame input).getD (2 * i) 0 = pcm16 (input.getD i 0) % 256 ∧
      (processAudioFrame input).getD (2 * i + 1) 0 = pcm16 (input.getD i 0) / 256 := by
  induction input with
  | nil => intro i h; cases h
  | cons x rest ih =>
      intro i hi
      rcases i with _ | j
      · rw [processAudioFrame_cons]
        exact ⟨rfl, rfl⟩
      · have h2 : 2 * (j + 1) = 2 * j + 1 + 1 := by omega
        rw [processAudioFrame_cons, h2]
        have hj : j < rest.length := by
          simpa using Nat.lt_of_succ_lt_succ hi
        obtain ⟨g1, g2⟩ := ih j hj
        exact ⟨by simpa using g1, by simpa using g2⟩

/-- C7: the emitted frame holds two bytes per input sample, with the
bytes at offsets `2i` and `2i + 1` encoding little-endian the signed
16-bit integer obtained by truncating `clamp(x, -1, 1) * 0x8000` when
the clamped sample is negative and `clamp(x, -1, 1) * 0x7FFF` otherwise;
the frame length is exactly `2 * n` (no resampling, silence suppression,
or compression), and each output position depends only on its single
corresponding input sample. -/
theorem pcm_framer_spec (input : List ℚ) (i : Nat) (h : i < input.length) :
    (processAudioFrame input).length = 2 * input.length ∧
    int16val ((processAudioFrame input).getD (2 * i) 0)
        ((processAudioFrame input).getD (2 * i + 1) 0) =
      truncTowardZero (scaleSample (input.getD i 0)) ∧
    scaleSample (input.getD i 0) =
      (if clampSample (input.getD i 0) < 0
        then clampSample (input.getD i 0) * 0x8000
        else clampSample (input.getD i 0) * 0x7FFF) ∧
    clampSample (input.getD i 0) = max (-1) (min 1 (input.getD i 0)) := by
  obtain ⟨g1, g2⟩ := processAudioFrame_getD input i h
  refine ⟨processAudioFrame_length input, ?_, rfl, rfl⟩
  rw [g1, g2]
  exact int16val_pcm16 _

theorem pcm_framer_spec_witness :
    (processAudioFrame [(-1 : ℚ), 1/2]).length = 2 * ([(-1 : ℚ), 1/2]).length ∧
    int16val ((processAudioFrame [(-1 : ℚ), 1/2]).getD 0 0)
        ((processAudioFrame [(-1 : ℚ), 1/2]).getD 1 0) =
      truncTowardZero (scaleSample (([(-1 : ℚ), 1/2]).getD 0 0)) := by
  have h := pcm_framer_spec [(-1 : ℚ), 1/2] 0 (by norm_num)
  exact ⟨h.1, by simpa using h.2.1⟩

/-! ### `toggleMic` start/stop paths (script.js lines 497-623)

The observable actions of one `toggleMic()` invocation, in program
order.  In the start path the WebSocket is constructed *before*
`getUserMedia` is awaited; permission denial lands in the catch block,
which sets one `Mic error` status, closes the socket, and stops any
acquired tracks (none were). -/

/-- Observable actions of `toggleMic`, in program order. -/
inductive MicAction where
  | promptSettings
  | wsCreate
  | captureStart
  | micStateOn
  | micStateOff
  | statusStreaming
  | statusMicError
  | wsClose
  | tracksStop
  deriving Repr, DecidableEq

/-- Session resources after the call returns: socket open, device tracks
live, audio graph active, `streaming` flag. -/
structure MicResources where
  wsOpen : Bool
  tracksLive : Bool
  captureActive : Bool
  streaming : Bool
  deriving Repr, DecidableEq

/-- `toggleMic()` given: whether `requireKeysOrPrompt('mic')` passes,
whether `getUserMedia` resolves (microphone permission), and the current
`streaming` flag. -/
def toggleMic (keysOk granted streaming : Bool) : List MicAction × MicResources :=
  if !keysOk then
    ([MicAction.promptSettings], ⟨false, false, false, streaming⟩)
  else if streaming then
    ([MicAction.tracksStop, MicAction.wsClose, MicAction.micStateOff],
      ⟨false, false, false, false⟩)
  else if granted then
    ([MicAction.wsCreate, MicAction.captureStart, MicAction.micStateOn,
      MicAction.statusStreaming],
      ⟨true, true, true, true⟩)
  else
    ([MicAction.wsCreate, MicAction.statusMicError, MicAction.wsClose],
      ⟨false, false, false, false⟩)

/-- C1 counterexample: with keys present and `streaming` false, a denied
microphone permission still sees a WebSocket constructed — `new
WebSocket(...)` runs before `getUserMedia` is awaited — so the session
does open a socket. -/
theorem toggleMic_denied_still_opens_socket :
    MicAction.wsCreate ∈ (toggleMic true false false).1 := by
  decide

/-- C1 amended: on permission denial the start path opens the socket
first and then aborts: the full action trace is create-socket, one mic
error status, close-socket; exactly one mic error status is shown;
capture never starts and the mic is never switched on; afterwards no
socket is open, no tracks are live, no capture is active, and
`streaming` is false. -/
theorem toggleMic_denied_aborts (keysOk streaming : Bool)
    (hk : keysOk = true) (hs : streaming = false) :
    (toggleMic keysOk false streaming).1 =
      [MicAction.wsCreate, MicAction.statusMicError, MicAction.wsClose] ∧
    (toggleMic keysOk false streaming).1.count MicAction.statusMicError = 1 ∧
    MicAction.captureStart ∉ (toggleMic keysOk false streaming).1 ∧
    MicAction.micStateOn ∉ (toggleMic keysOk false streaming).1 ∧
    (toggleMic keysOk false streaming).2 = ⟨false, false, false, false⟩ := by
  subst hk
  subst hs
  decide

theorem toggleMic_denied_aborts_witness :
    (toggleMic true false false).1 =
      [MicAction.wsCreate, MicAction.statusMicError, MicAction.wsClose] ∧
    (toggleMic true false false).1.count MicAction.statusMicError = 1 ∧
    MicAction.captureStart ∉ (toggleMic true false false).1 ∧
    MicAction.micStateOn ∉ (toggleMic true false false).1 ∧
    (toggleMic true false false).2 = ⟨false, false, false, false⟩ :=
  toggleMic_denied_aborts true false rfl rfl

end VoiceAgent
